import Mathlib

/-!
# Verification of the password generator (`src/script.js`)

Shallow embedding of the core of `script.js`:

* the four character-class constants `UPPER`, `LOWER`, `NUMBERS`, `SYMBOLS`;
* `getSecureRandomInt` (rejection sampling over 32-bit words from
  `window.crypto.getRandomValues`), modelled with an explicit stream of
  words `words : Nat → Nat` (each draw is taken `% 2^32`, as a
  `Uint32Array` cell holds a 32-bit value), a stream position, and a
  fuel bound for the rejection loop (the JS loop has no iteration cap;
  `none` models a run in which the loop has not yet accepted a word);
* `pickRandomChar`, `shuffleArray` (Fisher–Yates) and `generatePassword`.

The embedding threads an explicit state `RState` through every random
draw: `pos` counts the 32-bit words consumed from the stream and `calls`
counts the invocations of `getSecureRandomInt` (instrumentation used to
verify the call-count and no-randomness-consumed claims).

JS strings are modelled as `List Char`; the working buffer of
`generatePassword` is a JS array of strings (each `push` appends the
string returned by `pickRandomChar`, a one-character string, or the
empty string when `charAt` is out of range), hence `List (List Char)`,
and the final `join('')` is `List.flatten`.
-/

/-- State threaded through the random draws: `pos` is the index of the
next unconsumed 32-bit word of the stream, `calls` the number of
`getSecureRandomInt` invocations so far. -/
structure RState where
  pos : Nat
  calls : Nat
deriving DecidableEq, Repr

/-- Constant `UPPER = 'ABCDEFGHIJKLMNOPQRSTUVWXYZ'` -/
def UPPER : List Char := "ABCDEFGHIJKLMNOPQRSTUVWXYZ".toList

/-- Constant `LOWER = 'abcdefghijklmnopqrstuvwxyz'` -/
def LOWER : List Char := "abcdefghijklmnopqrstuvwxyz".toList

/-- Constant `NUMBERS = '0123456789'` -/
def NUMBERS : List Char := "0123456789".toList

/-- Constant `SYMBOLS = "~`!@#$%^&*()_-+={}[]|:;<>.?/,"` -/
def SYMBOLS : List Char := "~`!@#$%^&*()_-+=\x7b\x7d[]|:;<>.?/,".toList

/-- Constant `const uint32Max = 0xffffffff` (line 13 of `script.js`). -/
def uint32Max : Nat := 0xffffffff

/-- The bound `const bound = Math.floor(uint32Max / max) * max` (line 15).
`uint32Max` and `max` are integers below `2^53`, so the float division
plus `Math.floor` computes the exact integer floor. -/
def rejectionBound (max : Nat) : Nat := uint32Max / max * max

/-- The `while (true)` rejection loop (lines 16–19): draw the next
32-bit word; if it is below `bound`, return `word % max` together with
the new stream position, otherwise redraw.  `fuel` bounds the number of
iterations of the embedding; `none` means no word was accepted within
`fuel` draws. -/
def drawLoop (max bound : Nat) (words : Nat → Nat) : Nat → Nat → Option (Nat × Nat)
  | 0, _ => none
  | fuel + 1, pos =>
    let w := words pos % 2 ^ 32
    if w < bound then some (w % max, pos + 1)
    else drawLoop max bound words fuel (pos + 1)

/-- Function `getSecureRandomInt(max)` (lines 9–23) on the `window.crypto` path:
`if (max <= 0) return 0;` then rejection sampling.  Every invocation
increments `calls`; `pos` advances by the number of words drawn. -/
def getSecureRandomInt (fuel max : Nat) (words : Nat → Nat) (st : RState) :
    Option (Nat × RState) :=
  if max = 0 then some (0, ⟨st.pos, st.calls + 1⟩)
  else
    match drawLoop max (rejectionBound max) words fuel st.pos with
    | none => none
    | some (v, p) => some (v, ⟨p, st.calls + 1⟩)

/-- Function `pickRandomChar(str)` (lines 25–27): `str.charAt(getSecureRandomInt(str.length))`.
`charAt` yields a one-character string, or the empty string when the
index is out of range, so the result is a `List Char` of length ≤ 1. -/
def pickRandomChar (s : List Char) (fuel : Nat) (words : Nat → Nat) (st : RState) :
    Option (List Char × RState) :=
  match getSecureRandomInt fuel s.length words st with
  | none => none
  | some (i, st') => some (s[i]?.toList, st')

/-- The destructuring swap `[array[i], array[j]] = [array[j], array[i]]`
(line 33): assign `array[i] := old array[j]` first, then
`array[j] := old array[i]`.  In `shuffleArray` both indices are always
in range. -/
def listSwap (l : List α) (i j : Nat) : List α :=
  match l[i]?, l[j]? with
  | some a, some b => (l.set i b).set j a
  | _, _ => l

/-- The body of the `for` loop of `shuffleArray` (lines 31–34), iterating
`i` from `array.length - 1` down to `1`: draw `j = getSecureRandomInt(i + 1)`
and swap positions `i` and `j`. -/
def shuffleLoop (fuel : Nat) (words : Nat → Nat) :
    Nat → List α → RState → Option (List α × RState)
  | 0, arr, st => some (arr, st)
  | i + 1, arr, st =>
    match getSecureRandomInt fuel (i + 2) words st with
    | none => none
    | some (j, st') => shuffleLoop fuel words i (listSwap arr (i + 1) j) st'

/-- Function `shuffleArray(array)` (lines 30–36): Fisher–Yates over the whole
array. -/
def shuffleArray (fuel : Nat) (words : Nat → Nat) (arr : List α) (st : RState) :
    Option (List α × RState) :=
  shuffleLoop fuel words (arr.length - 1) arr st

/-- The destructured options argument `{ upper, lower, numbers, symbols }`
of `generatePassword`. -/
structure GenOpts where
  upper : Bool
  lower : Bool
  numbers : Bool
  symbols : Bool
deriving DecidableEq, Repr

/-- Lines 40–44: `const pools = []; if (upper) pools.push(UPPER); ...` -/
def pools (o : GenOpts) : List (List Char) :=
  (if o.upper then [UPPER] else []) ++ (if o.lower then [LOWER] else []) ++
    (if o.numbers then [NUMBERS] else []) ++ (if o.symbols then [SYMBOLS] else [])

/-- The loop `pools.forEach(pool => result.push(pickRandomChar(pool)))` (line 54),
starting from buffer `acc`. -/
def pickGuaranteed (fuel : Nat) (words : Nat → Nat) :
    List (List Char) → RState → List (List Char) → Option (List (List Char) × RState)
  | [], st, acc => some (acc, st)
  | p :: ps, st, acc =>
    match pickRandomChar p fuel words st with
    | none => none
    | some (c, st') => pickGuaranteed fuel words ps st' (acc ++ [c])

/-- The fill loop `for (let i = result.length; i < length; i++)`
(lines 58–60), which runs `length - result.length` times, each time
pushing `pickRandomChar(combined)`. -/
def fillLoop (fuel : Nat) (words : Nat → Nat) (combined : List Char) :
    Nat → RState → List (List Char) → Option (List (List Char) × RState)
  | 0, st, acc => some (acc, st)
  | n + 1, st, acc =>
    match pickRandomChar combined fuel words st with
    | none => none
    | some (c, st') => fillLoop fuel words combined n st' (acc ++ [c])

/-- Outcome of `generatePassword`: a returned string together with the
final draw state, a thrown `Error` (which leaves the draw state as it
was at the throw), or fuel exhaustion of a rejection loop. -/
inductive GenResult where
  | ok (password : List Char) (st : RState)
  | thrown (msg : String) (st : RState)
  | outOfEntropy
deriving DecidableEq, Repr

/-- Function `generatePassword(length, { upper, lower, numbers, symbols })`
(lines 39–64). -/
def generatePassword (fuel len : Nat) (o : GenOpts) (words : Nat → Nat)
    (st : RState) : GenResult :=
  let ps := pools o
  if ps.length = 0 then .ok [] st
  else if len < ps.length then
    .thrown ("Length too short for selected character types") st
  else
    match pickGuaranteed fuel words ps st [] with
    | none => .outOfEntropy
    | some (res1, st1) =>
      let combined := ps.flatten
      match fillLoop fuel words combined (len - res1.length) st1 res1 with
      | none => .outOfEntropy
      | some (res2, st2) =>
        match shuffleArray fuel words res2 st2 with
        | none => .outOfEntropy
        | some (res3, st3) => .ok res3.flatten st3

example : generatePassword 1 4 ⟨true, true, true, true⟩ (fun _ => 0) ⟨0, 0⟩ =
    .ok ['a', '0', '~', 'A'] ⟨7, 7⟩ := by rfl

/-! ## Helper lemmas -/

theorem set_self_eq (l : List α) (i : Nat) (h : i < l.length) : l.set i l[i] = l := by
  apply List.ext_getElem?
  intro n
  rw [List.getElem?_set]
  split
  · subst n; simp [List.getElem?_eq_getElem h]
  · rfl

theorem set_perm_cons_eraseIdx (l : List α) (n : Nat) (h : n < l.length) (x : α) :
    (l.set n x).Perm (x :: l.eraseIdx n) := by
  rw [List.set_eq_take_cons_drop x h, List.eraseIdx_eq_take_drop_succ]
  exact List.perm_middle

theorem self_perm_cons_eraseIdx (l : List α) (n : Nat) (h : n < l.length) :
    l.Perm (l[n] :: l.eraseIdx n) := by
  have := set_perm_cons_eraseIdx l n h l[n]
  rwa [set_self_eq l n h] at this

theorem listSwap_perm (l : List α) (i j : Nat) : (listSwap l i j).Perm l := by
  unfold listSwap
  cases hi : l[i]? with
  | none => exact List.Perm.refl l
  | some a =>
    cases hj : l[j]? with
    | none => exact List.Perm.refl l
    | some b =>
      obtain ⟨hi', ha⟩ := List.getElem?_eq_some.mp hi
      obtain ⟨hj', hb⟩ := List.getElem?_eq_some.mp hj
      show ((l.set i b).set j a).Perm l
      by_cases hij : i = j
      · subst hij
        have hab : a = b := by rw [← ha, ← hb]
        subst hab
        rw [List.set_set, ← ha, set_self_eq l i hi']
      · have hj'' : j < (l.set i b).length := by simpa using hj'
        have hlb : (l.set i b)[j] = b := by
          rw [List.getElem_set_ne hij, hb]
        have p1 : ((l.set i b).set j a).Perm (a :: (l.set i b).eraseIdx j) :=
          set_perm_cons_eraseIdx (l.set i b) j hj'' a
        have p2 : (l.set i b).Perm (b :: (l.set i b).eraseIdx j) := by
          have := self_perm_cons_eraseIdx (l.set i b) j hj''
          rwa [hlb] at this
        have p3 : (l.set i b).Perm (b :: l.eraseIdx i) :=
          set_perm_cons_eraseIdx l i hi' b
        have p4 : ((l.set i b).eraseIdx j).Perm (l.eraseIdx i) :=
          (p2.symm.trans p3).cons_inv
        have p5 : l.Perm (a :: l.eraseIdx i) := by
          have := self_perm_cons_eraseIdx l i hi'
          rwa [ha] at this
        exact p1.trans ((p4.cons a).trans p5.symm)

theorem listSwap_length (l : List α) (i j : Nat) :
    (listSwap l i j).length = l.length := (listSwap_perm l i j).length_eq

theorem drawLoop_some_lt {max bound : Nat} {words : Nat → Nat} :
    ∀ {fuel pos v p'}, 0 < max →
      drawLoop max bound words fuel pos = some (v, p') → v < max := by
  intro fuel
  induction fuel with
  | zero => intro pos v p' _ h; simp [drawLoop] at h
  | succ n ih =>
    intro pos v p' hmax h
    rw [drawLoop] at h
    by_cases hw : words pos % 2 ^ 32 < bound
    · simp only [hw, if_true] at h
      obtain ⟨hv, _⟩ := Prod.mk.injEq .. ▸ Option.some.injEq .. ▸ h
      exact hv ▸ Nat.mod_lt _ hmax
    · simp only [hw, if_false] at h
      exact ih hmax h

theorem drawLoop_pos_lt {max bound : Nat} {words : Nat → Nat} :
    ∀ {fuel pos v p'},
      drawLoop max bound words fuel pos = some (v, p') → pos < p' := by
  intro fuel
  induction fuel with
  | zero => intro pos v p' h; simp [drawLoop] at h
  | succ n ih =>
    intro pos v p' h
    rw [drawLoop] at h
    by_cases hw : words pos % 2 ^ 32 < bound
    · simp only [hw, if_true] at h
      obtain ⟨_, hp⟩ := Prod.mk.injEq .. ▸ Option.some.injEq .. ▸ h
      omega
    · simp only [hw, if_false] at h
      have := ih h
      omega

theorem getSecureRandomInt_some_lt {fuel max : Nat} {words : Nat → Nat}
    {st : RState} {v : Nat} {st' : RState} (hmax : 0 < max)
    (h : getSecureRandomInt fuel max words st = some (v, st')) : v < max := by
  unfold getSecureRandomInt at h
  rw [if_neg (Nat.pos_iff_ne_zero.mp hmax)] at h
  cases hd : drawLoop max (rejectionBound max) words fuel st.pos with
  | none => rw [hd] at h; exact absurd h (by simp)
  | some vp =>
    obtain ⟨v', p'⟩ := vp
    rw [hd] at h
    simp only [Option.some.injEq, Prod.mk.injEq] at h
    exact h.1 ▸ drawLoop_some_lt hmax hd

theorem getSecureRandomInt_some_calls {fuel max : Nat} {words : Nat → Nat}
    {st : RState} {v : Nat} {st' : RState}
    (h : getSecureRandomInt fuel max words st = some (v, st')) :
    st'.calls = st.calls + 1 := by
  unfold getSecureRandomInt at h
  by_cases hz : max = 0
  · rw [if_pos hz] at h
    simp only [Option.some.injEq, Prod.mk.injEq] at h
    rw [← h.2]
  · rw [if_neg hz] at h
    cases hd : drawLoop max (rejectionBound max) words fuel st.pos with
    | none => rw [hd] at h; exact absurd h (by simp)
    | some vp =>
      obtain ⟨v', p'⟩ := vp
      rw [hd] at h
      simp only [Option.some.injEq, Prod.mk.injEq] at h
      rw [← h.2]

theorem getSecureRandomInt_some_pos_le {fuel max : Nat} {words : Nat → Nat}
    {st : RState} {v : Nat} {st' : RState}
    (h : getSecureRandomInt fuel max words st = some (v, st')) :
    st.pos ≤ st'.pos := by
  unfold getSecureRandomInt at h
  by_cases hz : max = 0
  · rw [if_pos hz] at h
    simp only [Option.some.injEq, Prod.mk.injEq] at h
    rw [← h.2]
  · rw [if_neg hz] at h
    cases hd : drawLoop max (rejectionBound max) words fuel st.pos with
    | none => rw [hd] at h; exact absurd h (by simp)
    | some vp =>
      obtain ⟨v', p'⟩ := vp
      rw [hd] at h
      simp only [Option.some.injEq, Prod.mk.injEq] at h
      rw [← h.2]
      exact Nat.le_of_lt (drawLoop_pos_lt hd)

theorem pickRandomChar_some {s : List Char} {fuel : Nat} {words : Nat → Nat}
    {st : RState} {c : List Char} {st' : RState} (hs : s ≠ [])
    (h : pickRandomChar s fuel words st = some (c, st')) :
    ∃ ch, c = [ch] ∧ ch ∈ s ∧ st'.calls = st.calls + 1 ∧ st.pos ≤ st'.pos := by
  unfold pickRandomChar at h
  cases hg : getSecureRandomInt fuel s.length words st with
  | none => rw [hg] at h; exact absurd h (by simp)
  | some ist =>
    obtain ⟨i, st''⟩ := ist
    rw [hg] at h
    simp only [Option.some.injEq, Prod.mk.injEq] at h
    obtain ⟨hc, hst⟩ := h
    have hlen : 0 < s.length := List.length_pos.mpr hs
    have hi : i < s.length := getSecureRandomInt_some_lt hlen hg
    refine ⟨s[i], ?_, List.getElem_mem hi, ?_, ?_⟩
    · rw [← hc, List.getElem?_eq_getElem hi]; rfl
    · rw [← hst]; exact getSecureRandomInt_some_calls hg
    · rw [← hst]; exact getSecureRandomInt_some_pos_le hg

theorem pickGuaranteed_some {fuel : Nat} {words : Nat → Nat} :
    ∀ (ps : List (List Char)) (st : RState) (acc res : List (List Char)) (st' : RState),
      (∀ p ∈ ps, p ≠ []) →
      pickGuaranteed fuel words ps st acc = some (res, st') →
      ∃ elems, res = acc ++ elems ∧
        List.Forall₂ (fun p e => ∃ ch, e = [ch] ∧ ch ∈ p) ps elems ∧
        st'.calls = st.calls + ps.length ∧ st.pos ≤ st'.pos := by
  intro ps
  induction ps with
  | nil =>
    intro st acc res st' _ h
    simp only [pickGuaranteed, Option.some.injEq, Prod.mk.injEq] at h
    exact ⟨[], by simp [← h.1], List.Forall₂.nil, by simp [← h.2], by rw [← h.2]⟩
  | cons p ps ih =>
    intro st acc res st' hne h
    simp only [pickGuaranteed] at h
    cases hp : pickRandomChar p fuel words st with
    | none => rw [hp] at h; exact absurd h (by simp)
    | some cst =>
      obtain ⟨c, st1⟩ := cst
      rw [hp] at h
      obtain ⟨ch, hch, hmem, hcalls1, hpos1⟩ :=
        pickRandomChar_some (hne p (by simp)) hp
      obtain ⟨elems, hres, hfa, hcalls2, hpos2⟩ :=
        ih st1 (acc ++ [c]) res st' (fun q hq => hne q (by simp [hq])) h
      refine ⟨c :: elems, by simpa using hres, ?_, ?_, ?_⟩
      · exact List.Forall₂.cons ⟨ch, hch, hmem⟩ hfa
      · rw [hcalls2, hcalls1, List.length_cons]; omega
      · omega

theorem fillLoop_some {fuel : Nat} {words : Nat → Nat} {combined : List Char}
    (hc : combined ≠ []) :
    ∀ (n : Nat) (st : RState) (acc res : List (List Char)) (st' : RState),
      fillLoop fuel words combined n st acc = some (res, st') →
      ∃ elems, res = acc ++ elems ∧ elems.length = n ∧
        (∀ e ∈ elems, ∃ ch, e = [ch] ∧ ch ∈ combined) ∧
        st'.calls = st.calls + n ∧ st.pos ≤ st'.pos := by
  intro n
  induction n with
  | zero =>
    intro st acc res st' h
    simp only [fillLoop, Option.some.injEq, Prod.mk.injEq] at h
    exact ⟨[], by simp [← h.1], rfl, by simp, by simp [← h.2], by rw [← h.2]⟩
  | succ n ih =>
    intro st acc res st' h
    simp only [fillLoop] at h
    cases hp : pickRandomChar combined fuel words st with
    | none => rw [hp] at h; exact absurd h (by simp)
    | some cst =>
      obtain ⟨c, st1⟩ := cst
      rw [hp] at h
      obtain ⟨ch, hch, hmem, hcalls1, hpos1⟩ := pickRandomChar_some hc hp
      obtain ⟨elems, hres, hlen, hel, hcalls2, hpos2⟩ :=
        ih st1 (acc ++ [c]) res st' h
      refine ⟨c :: elems, by simpa using hres, by simp [hlen], ?_, ?_, ?_⟩
      · intro e he
        rcases List.mem_cons.mp he with rfl | he'
        · exact ⟨ch, hch, hmem⟩
        · exact hel e he'
      · rw [hcalls2, hcalls1]; omega
      · omega

theorem shuffleLoop_some {fuel : Nat} {words : Nat → Nat} {α : Type _} :
    ∀ (i : Nat) (arr : List α) (st : RState) (res : List α) (st' : RState),
      shuffleLoop fuel words i arr st = some (res, st') →
      res.Perm arr ∧ st'.calls = st.calls + i ∧ st.pos ≤ st'.pos := by
  intro i
  induction i with
  | zero =>
    intro arr st res st' h
    simp only [shuffleLoop, Option.some.injEq, Prod.mk.injEq] at h
    exact ⟨h.1 ▸ List.Perm.refl _, by simp [← h.2], by rw [← h.2]⟩
  | succ i ih =>
    intro arr st res st' h
    simp only [shuffleLoop] at h
    cases hg : getSecureRandomInt fuel (i + 2) words st with
    | none => rw [hg] at h; exact absurd h (by simp)
    | some jst =>
      obtain ⟨j, st1⟩ := jst
      rw [hg] at h
      obtain ⟨hperm, hcalls, hpos⟩ := ih (listSwap arr (i + 1) j) st1 res st' h
      refine ⟨hperm.trans (listSwap_perm arr (i + 1) j), ?_, ?_⟩
      · rw [hcalls, getSecureRandomInt_some_calls hg]; omega
      · exact le_trans (getSecureRandomInt_some_pos_le hg) hpos

theorem shuffleArray_some {fuel : Nat} {words : Nat → Nat} {α : Type _}
    {arr res : List α} {st st' : RState}
    (h : shuffleArray fuel words arr st = some (res, st')) :
    res.Perm arr ∧ st'.calls = st.calls + (arr.length - 1) ∧ st.pos ≤ st'.pos :=
  shuffleLoop_some (arr.length - 1) arr st res st' h

theorem mem_pools {o : GenOpts} {p : List Char} (hp : p ∈ pools o) :
    p = UPPER ∨ p = LOWER ∨ p = NUMBERS ∨ p = SYMBOLS := by
  unfold pools at hp
  rcases o with ⟨u, l, n, s⟩
  cases u <;> cases l <;> cases n <;> cases s <;> simp_all <;> tauto

theorem pools_elem_ne_nil {o : GenOpts} {p : List Char} (hp : p ∈ pools o) :
    p ≠ [] := by
  rcases mem_pools hp with rfl | rfl | rfl | rfl <;> decide

theorem pools_flatten_ne_nil {o : GenOpts} (hne : pools o ≠ []) :
    (pools o).flatten ≠ [] := by
  obtain ⟨p, hp⟩ := List.exists_mem_of_ne_nil _ hne
  obtain ⟨c, hc⟩ := List.exists_mem_of_ne_nil _ (pools_elem_ne_nil hp)
  exact List.ne_nil_of_mem (List.mem_flatten.mpr ⟨p, hp, hc⟩)

theorem forall₂_mem_left {α β : Type _} {R : α → β → Prop} :
    ∀ {l₁ : List α} {l₂ : List β}, List.Forall₂ R l₁ l₂ →
      ∀ a ∈ l₁, ∃ b ∈ l₂, R a b := by
  intro l₁ l₂ h
  induction h with
  | nil => simp
  | cons hr _ ih =>
    intro a ha
    rcases List.mem_cons.mp ha with rfl | ha'
    · exact ⟨_, by simp, hr⟩
    · obtain ⟨b, hb, hrb⟩ := ih a ha'
      exact ⟨b, by simp [hb], hrb⟩

theorem forall₂_mem_right {α β : Type _} {R : α → β → Prop} :
    ∀ {l₁ : List α} {l₂ : List β}, List.Forall₂ R l₁ l₂ →
      ∀ b ∈ l₂, ∃ a ∈ l₁, R a b := by
  intro l₁ l₂ h
  induction h with
  | nil => simp
  | cons hr _ ih =>
    intro b hb
    rcases List.mem_cons.mp hb with rfl | hb'
    · exact ⟨_, by simp, hr⟩
    · obtain ⟨a, ha, hra⟩ := ih b hb'
      exact ⟨a, by simp [ha], hra⟩

theorem flatten_length_of_singletons {α : Type _} :
    ∀ {L : List (List α)}, (∀ e ∈ L, ∃ ch, e = [ch]) →
      L.flatten.length = L.length := by
  intro L
  induction L with
  | nil => intro _; rfl
  | cons e L ih =>
    intro h
    obtain ⟨ch, hch⟩ := h e (by simp)
    rw [List.flatten_cons, List.length_append, List.length_cons,
      ih fun e' he' => h e' (by simp [he']), hch]
    simp only [List.length_singleton]
    omega

theorem generatePassword_ok_anatomy {fuel len : Nat} {o : GenOpts}
    {words : Nat → Nat} {st : RState} {pw : List Char} {st' : RState}
    (hne : pools o ≠ []) (hlen : (pools o).length ≤ len)
    (h : generatePassword fuel len o words st = .ok pw st') :
    ∃ elems fillElems res3 : List (List Char),
      List.Forall₂ (fun p e => ∃ ch, e = [ch] ∧ ch ∈ p) (pools o) elems ∧
      fillElems.length = len - (pools o).length ∧
      (∀ e ∈ fillElems, ∃ ch, e = [ch] ∧ ch ∈ (pools o).flatten) ∧
      res3.Perm (elems ++ fillElems) ∧ pw = res3.flatten ∧
      st'.calls = st.calls + (2 * len - 1) ∧ st.pos ≤ st'.pos := by
  unfold generatePassword at h
  rw [if_neg (by simpa using hne), if_neg (Nat.not_lt.mpr hlen)] at h
  cases hpg : pickGuaranteed fuel words (pools o) st [] with
  | none => rw [hpg] at h; exact absurd h (by simp)
  | some r1 =>
    obtain ⟨res1, st1⟩ := r1
    rw [hpg] at h
    dsimp only [] at h
    obtain ⟨elems, hres1, hfa, hcalls1, hpos1⟩ :=
      pickGuaranteed_some (pools o) st [] res1 st1
        (fun p hp => pools_elem_ne_nil hp) hpg
    rw [List.nil_append] at hres1
    subst hres1
    cases hfl : fillLoop fuel words (pools o).flatten (len - res1.length) st1 res1 with
    | none => rw [hfl] at h; exact absurd h (by simp)
    | some r2 =>
      obtain ⟨res2, st2⟩ := r2
      rw [hfl] at h
      dsimp only [] at h
      obtain ⟨fillElems, hres2, hfillLen, hfillMem, hcalls2, hpos2⟩ :=
        fillLoop_some (pools_flatten_ne_nil hne) _ st1 res1 res2 st2 hfl
      subst hres2
      cases hsh : shuffleArray fuel words (res1 ++ fillElems) st2 with
      | none => rw [hsh] at h; exact absurd h (by simp)
      | some r3 =>
        obtain ⟨res3, st3⟩ := r3
        rw [hsh] at h
        dsimp only [] at h
        simp only [GenResult.ok.injEq] at h
        obtain ⟨hpw, hst⟩ := h
        subst hst
        obtain ⟨hperm, hcalls3, hpos3⟩ := shuffleArray_some hsh
        have hk : res1.length = (pools o).length := hfa.length_eq.symm
        have hk1 : 1 ≤ (pools o).length := by
          cases hpools : pools o with
          | nil => exact absurd hpools hne
          | cons a l => simp [hpools]
        refine ⟨res1, fillElems, res3, hfa, by omega, hfillMem, hperm, hpw.symm, ?_, ?_⟩
        · rw [hcalls3, List.length_append]
          omega
        · omega

theorem generatePassword_empty_pools_eq {fuel len : Nat} {o : GenOpts}
    {words : Nat → Nat} {st : RState} (h : pools o = []) :
    generatePassword fuel len o words st = .ok [] st := by
  unfold generatePassword
  rw [if_pos (by simp [h])]

theorem generatePassword_short_eq {fuel len : Nat} {o : GenOpts}
    {words : Nat → Nat} {st : RState} (hne : pools o ≠ [])
    (hlt : len < (pools o).length) :
    generatePassword fuel len o words st =
      .thrown ("Length too short for selected character types") st := by
  unfold generatePassword
  rw [if_neg (by simpa using hne), if_pos hlt]

/-! ## Claim theorems -/

/-- C1: For every valid request (non-empty selection, `length ≥ |selection|`)
and every randomness stream on which generation completes, the returned
password has exactly `length` characters, every character belongs to the
union of the selected classes (so, the classes being pairwise disjoint, no
character of an unselected class appears), and at least one character from
each selected class appears. -/
theorem generatePassword_valid_length_coverage (fuel len : Nat) (o : GenOpts)
    (words : Nat → Nat) (st : RState) (pw : List Char) (st' : RState)
    (hne : pools o ≠ []) (hlen : (pools o).length ≤ len)
    (hok : generatePassword fuel len o words st = .ok pw st') :
    pw.length = len ∧ (∀ c ∈ pw, c ∈ (pools o).flatten) ∧
      ∀ p ∈ pools o, ∃ c ∈ pw, c ∈ p := by
  obtain ⟨elems, fills, res3, hfa, hfillLen, hfillMem, hperm, hpw, _, _⟩ :=
    generatePassword_ok_anatomy hne hlen hok
  subst hpw
  have hsingles : ∀ e ∈ elems ++ fills, ∃ ch, e = [ch] := by
    intro e he
    rcases List.mem_append.mp he with he | he
    · obtain ⟨p, hp, ch, hch, _⟩ := forall₂_mem_right hfa e he
      exact ⟨ch, hch⟩
    · obtain ⟨ch, hch, _⟩ := hfillMem e he
      exact ⟨ch, hch⟩
  refine ⟨?_, ?_, ?_⟩
  · rw [hperm.flatten.length_eq, flatten_length_of_singletons hsingles,
      List.length_append]
    have h1 : (pools o).length = elems.length := hfa.length_eq
    omega
  · intro c hc
    have hc2 : c ∈ (elems ++ fills).flatten := hperm.flatten.mem_iff.mp hc
    obtain ⟨e, he, hce⟩ := List.mem_flatten.mp hc2
    rcases List.mem_append.mp he with he | he
    · obtain ⟨p, hp, ch, hch, hchp⟩ := forall₂_mem_right hfa e he
      subst hch
      have hcch : c = ch := by simpa using hce
      subst hcch
      exact List.mem_flatten.mpr ⟨p, hp, hchp⟩
    · obtain ⟨ch, hch, hchm⟩ := hfillMem e he
      subst hch
      have hcch : c = ch := by simpa using hce
      subst hcch
      exact hchm
  · intro p hp
    obtain ⟨e, he, ch, hch, hchp⟩ := forall₂_mem_left hfa p hp
    refine ⟨ch, ?_, hchp⟩
    apply hperm.flatten.mem_iff.mpr
    exact List.mem_flatten.mpr ⟨e, List.mem_append.mpr (Or.inl he), by simp [hch]⟩

theorem generatePassword_valid_length_coverage_witness :
    (pools ⟨true, true, true, false⟩ ≠ [] ∧
      (pools ⟨true, true, true, false⟩).length ≤ 12) ∧
    ((['a', '0', 'A', 'A', 'A', 'A', 'A', 'A', 'A', 'A', 'A', 'A'] :
        List Char).length = 12 ∧
      (∀ c ∈ (['a', '0', 'A', 'A', 'A', 'A', 'A', 'A', 'A', 'A', 'A', 'A'] :
        List Char), c ∈ (pools ⟨true, true, true, false⟩).flatten) ∧
      ∀ p ∈ pools ⟨true, true, true, false⟩,
        ∃ c ∈ (['a', '0', 'A', 'A', 'A', 'A', 'A', 'A', 'A', 'A', 'A', 'A'] :
          List Char), c ∈ p) :=
  ⟨⟨by decide, by decide⟩,
    generatePassword_valid_length_coverage 1 12 ⟨true, true, true, false⟩
      (fun _ => 0) ⟨0, 0⟩
      ['a', '0', 'A', 'A', 'A', 'A', 'A', 'A', 'A', 'A', 'A', 'A'] ⟨23, 23⟩
      (by decide) (by decide) (by rfl)⟩

/-- C2 counterexample: With the selection empty (all four flags off),
`generatePassword` does not fail: it returns the empty string (here at
`length = 10`), contradicting the claim that it fails with an
`InvalidRequest` error for every length. -/
theorem generatePassword_empty_selection_counterexample :
    generatePassword 1 10 ⟨false, false, false, false⟩ (fun _ => 0) ⟨0, 0⟩ =
      .ok [] ⟨0, 0⟩ := by rfl

/-- C2 amended: When the class selection is empty, `generatePassword`
returns the empty string without raising any error (and without touching
the randomness stream), for every value of `length`. -/
theorem generatePassword_empty_selection_returns_empty (fuel len : Nat)
    (o : GenOpts) (words : Nat → Nat) (st : RState) (h : pools o = []) :
    generatePassword fuel len o words st = .ok [] st :=
  generatePassword_empty_pools_eq h

theorem generatePassword_empty_selection_returns_empty_witness :
    pools ⟨false, false, false, false⟩ = [] ∧
      generatePassword 3 10 ⟨false, false, false, false⟩ (fun _ => 1) ⟨5, 2⟩ =
        .ok [] ⟨5, 2⟩ :=
  ⟨by decide, generatePassword_empty_selection_returns_empty 3 10
    ⟨false, false, false, false⟩ (fun _ => 1) ⟨5, 2⟩ (by decide)⟩

/-- C3: When the selection is non-empty and `length < |selection|`,
`generatePassword` throws the `Length too short for selected character
types` error and produces no password (the draw state is returned as it
was at the throw). -/
theorem generatePassword_length_too_short_throws (fuel len : Nat) (o : GenOpts)
    (words : Nat → Nat) (st : RState) (hne : pools o ≠ [])
    (hlt : len < (pools o).length) :
    generatePassword fuel len o words st =
      .thrown ("Length too short for selected character types") st :=
  generatePassword_short_eq hne hlt

theorem generatePassword_length_too_short_throws_witness :
    (pools ⟨true, true, true, true⟩ ≠ [] ∧
      3 < (pools ⟨true, true, true, true⟩).length) ∧
    generatePassword 1 3 ⟨true, true, true, true⟩ (fun _ => 0) ⟨0, 0⟩ =
      .thrown ("Length too short for selected character types") ⟨0, 0⟩ :=
  ⟨⟨by decide, by decide⟩,
    generatePassword_length_too_short_throws 1 3 ⟨true, true, true, true⟩
      (fun _ => 0) ⟨0, 0⟩ (by decide) (by decide)⟩

/-- C4: For every invalid request (empty selection, or
`length < |selection|`), `generatePassword` returns before any call to
`getSecureRandomInt`: the outcome is either the empty string or the
thrown error, in both cases carrying the input draw state unchanged
(`pos` — no word of the randomness stream consumed — and `calls` — no
draw performed), and no password characters are produced. -/
theorem generatePassword_invalid_consumes_no_randomness (fuel len : Nat)
    (o : GenOpts) (words : Nat → Nat) (st : RState)
    (hinv : pools o = [] ∨ len < (pools o).length) :
    generatePassword fuel len o words st = .ok [] st ∨
      generatePassword fuel len o words st =
        .thrown ("Length too short for selected character types") st := by
  by_cases hne : pools o = []
  · exact Or.inl (generatePassword_empty_pools_eq hne)
  · rcases hinv with h | h
    · exact absurd h hne
    · exact Or.inr (generatePassword_short_eq hne h)

theorem generatePassword_invalid_consumes_no_randomness_witness :
    (pools ⟨false, true, true, true⟩ = [] ∨
      2 < (pools ⟨false, true, true, true⟩).length) ∧
    (generatePassword 9 2 ⟨false, true, true, true⟩ (fun k => k + 11) ⟨4, 7⟩ =
        .ok [] ⟨4, 7⟩ ∨
      generatePassword 9 2 ⟨false, true, true, true⟩ (fun k => k + 11) ⟨4, 7⟩ =
        .thrown ("Length too short for selected character types") ⟨4, 7⟩) :=
  ⟨by decide, generatePassword_invalid_consumes_no_randomness 9 2
    ⟨false, true, true, true⟩ (fun k => k + 11) ⟨4, 7⟩ (by decide)⟩

/-- C7: For every valid request of length `L` with `k` selected classes
(`1 ≤ k ≤ L`) whose generation completes, `generatePassword` performs
exactly `k` guaranteed-class draws, `L - k` fill draws and `L - 1` shuffle
draws: the `calls` counter grows by exactly `2L - 1`. -/
theorem generatePassword_call_count (fuel len : Nat) (o : GenOpts)
    (words : Nat → Nat) (st : RState) (pw : List Char) (st' : RState)
    (hne : pools o ≠ []) (hlen : (pools o).length ≤ len)
    (hok : generatePassword fuel len o words st = .ok pw st') :
    st'.calls = st.calls + (2 * len - 1) :=
  (generatePassword_ok_anatomy hne hlen hok).choose_spec.choose_spec.choose_spec.2.2.2.2.2.1

theorem generatePassword_call_count_witness :
    (pools ⟨true, false, true, false⟩ ≠ [] ∧
      (pools ⟨true, false, true, false⟩).length ≤ 5) ∧
    (RState.mk 9 9).calls = (RState.mk 0 0).calls + (2 * 5 - 1) :=
  ⟨⟨by decide, by decide⟩,
    generatePassword_call_count 1 5 ⟨true, false, true, false⟩
      (fun k => k * 7 + 3) ⟨0, 0⟩ ['D', 'R', '5', '0', 'Y'] ⟨9, 9⟩
      (by decide) (by decide) (by rfl)⟩

/-- C5: Whenever `getSecureRandomInt(max)` with `max > 0` returns, the
value is in `[0, max)`; for `max = 1` it always returns `0`; and for
`max = 0` it returns `0` immediately (defined degenerate case: no error,
no word of the stream consumed). -/
theorem getSecureRandomInt_bounded :
    (∀ (fuel max : Nat) (words : Nat → Nat) (st : RState) (v : Nat) (st' : RState),
        0 < max → getSecureRandomInt fuel max words st = some (v, st') → v < max) ∧
    (∀ (fuel : Nat) (words : Nat → Nat) (st : RState) (v : Nat) (st' : RState),
        getSecureRandomInt fuel 1 words st = some (v, st') → v = 0) ∧
    (∀ (fuel : Nat) (words : Nat → Nat) (st : RState),
        getSecureRandomInt fuel 0 words st = some (0, ⟨st.pos, st.calls + 1⟩)) := by
  refine ⟨fun _ _ _ _ _ _ h hg => getSecureRandomInt_some_lt h hg, ?_, ?_⟩
  · intro fuel words st v st' hg
    have := getSecureRandomInt_some_lt (by decide) hg
    omega
  · intro fuel words st
    rfl

theorem getSecureRandomInt_bounded_witness :
    (0 < 5 ∧ getSecureRandomInt 1 5 (fun _ => 7) ⟨0, 0⟩ = some (2, ⟨1, 1⟩)) ∧
      2 < 5 :=
  ⟨⟨by decide, by rfl⟩,
    getSecureRandomInt_bounded.1 1 5 (fun _ => 7) ⟨0, 0⟩ 2 ⟨1, 1⟩
      (by decide) (by rfl)⟩

/-- C6 counterexample: The code computes the threshold from
`uint32Max = 0xffffffff = 2^32 − 1`, not from the `2^32`-sized word
space: at `max = 2` it is `4294967294 ≠ floor(2^32/2)·2 = 4294967296`.
Behaviourally, the 32-bit word `4294967294` — a multiple of 2 that the
claimed threshold would accept — is rejected and a second word drawn. -/
theorem rejectionBound_counterexample :
    rejectionBound 2 ≠ 2 ^ 32 / 2 * 2 ∧
      getSecureRandomInt 2 2 (fun k => if k = 0 then 4294967294 else 7) ⟨0, 0⟩ =
        some (1, ⟨2, 1⟩) :=
  ⟨by decide, by rfl⟩

/-- C6 amended: For every `max > 0` the rejection threshold computed by
`getSecureRandomInt` equals `floor((2^32 − 1)/max) · max` — the largest
multiple of `max` not exceeding `2^32 − 1` (one multiple short of the
claimed `floor(2^32/max) · max` exactly when `max` divides `2^32`) — and a
drawn 32-bit word is accepted, returning `word mod max` with exactly one
word consumed, precisely when it is strictly below that threshold. -/
theorem rejectionBound_largest_multiple_acceptance (fuel max pos c : Nat)
    (words : Nat → Nat) (hmax : 0 < max) :
    (rejectionBound max % max = 0 ∧ rejectionBound max ≤ uint32Max ∧
      ∀ m, m % max = 0 → m ≤ uint32Max → m ≤ rejectionBound max) ∧
    (words pos % 2 ^ 32 < rejectionBound max ↔
      getSecureRandomInt (fuel + 1) max words ⟨pos, c⟩ =
        some (words pos % 2 ^ 32 % max, ⟨pos + 1, c + 1⟩)) := by
  have hz : max ≠ 0 := Nat.pos_iff_ne_zero.mp hmax
  constructor
  · refine ⟨Nat.mul_mod_left _ _, Nat.div_mul_le_self _ _, ?_⟩
    intro m hm hle
    calc m = m / max * max := (Nat.div_mul_cancel (Nat.dvd_of_mod_eq_zero hm)).symm
    _ ≤ uint32Max / max * max := Nat.mul_le_mul_right max (Nat.div_le_div_right hle)
  · constructor
    · intro hlt
      have hstep : drawLoop max (rejectionBound max) words (fuel + 1) pos =
          some (words pos % 2 ^ 32 % max, pos + 1) := by
        rw [drawLoop]
        simp only [hlt, if_true]
      unfold getSecureRandomInt
      rw [if_neg hz]
      dsimp only []
      rw [hstep]
    · intro heq
      by_contra hnlt
      have hstep : drawLoop max (rejectionBound max) words (fuel + 1) pos =
          drawLoop max (rejectionBound max) words fuel (pos + 1) := by
        rw [drawLoop]
        simp only [hnlt, if_false]
      unfold getSecureRandomInt at heq
      rw [if_neg hz] at heq
      dsimp only [] at heq
      rw [hstep] at heq
      cases hd : drawLoop max (rejectionBound max) words fuel (pos + 1) with
      | none => rw [hd] at heq; exact absurd heq (by simp)
      | some vp =>
        obtain ⟨v, p⟩ := vp
        rw [hd] at heq
        have hplt : pos + 1 < p := drawLoop_pos_lt hd
        simp only [Option.some.injEq, Prod.mk.injEq, RState.mk.injEq] at heq
        omega

theorem drawLoop_congr {max bound : Nat} {w₁ w₂ : Nat → Nat} :
    ∀ {fuel pos : Nat}, (∀ k, pos ≤ k → w₁ k = w₂ k) →
      drawLoop max bound w₁ fuel pos = drawLoop max bound w₂ fuel pos := by
  intro fuel
  induction fuel with
  | zero => intro pos _; rfl
  | succ n ih =>
    intro pos h
    rw [drawLoop, drawLoop, h pos le_rfl]
    by_cases hw : w₂ pos % 2 ^ 32 < bound
    · simp only [hw, if_true]
    · simp only [hw, if_false]
      exact ih fun k hk => h k (by omega)

theorem getSecureRandomInt_congr {fuel max : Nat} {w₁ w₂ : Nat → Nat}
    {st : RState} (h : ∀ k, st.pos ≤ k → w₁ k = w₂ k) :
    getSecureRandomInt fuel max w₁ st = getSecureRandomInt fuel max w₂ st := by
  unfold getSecureRandomInt
  rw [drawLoop_congr h]

theorem pickRandomChar_congr {s : List Char} {fuel : Nat} {w₁ w₂ : Nat → Nat}
    {st : RState} (h : ∀ k, st.pos ≤ k → w₁ k = w₂ k) :
    pickRandomChar s fuel w₁ st = pickRandomChar s fuel w₂ st := by
  unfold pickRandomChar
  rw [getSecureRandomInt_congr h]

theorem pickRandomChar_pos_le {s : List Char} {fuel : Nat} {words : Nat → Nat}
    {st : RState} {c : List Char} {st' : RState}
    (h : pickRandomChar s fuel words st = some (c, st')) : st.pos ≤ st'.pos := by
  unfold pickRandomChar at h
  cases hg : getSecureRandomInt fuel s.length words st with
  | none => rw [hg] at h; exact absurd h (by simp)
  | some ist =>
    obtain ⟨i, st''⟩ := ist
    rw [hg] at h
    simp only [Option.some.injEq, Prod.mk.injEq] at h
    exact h.2 ▸ getSecureRandomInt_some_pos_le hg

theorem pickGuaranteed_congr {fuel : Nat} {w₁ w₂ : Nat → Nat} :
    ∀ (ps : List (List Char)) (st : RState) (acc : List (List Char)),
      (∀ k, st.pos ≤ k → w₁ k = w₂ k) →
      pickGuaranteed fuel w₁ ps st acc = pickGuaranteed fuel w₂ ps st acc := by
  intro ps
  induction ps with
  | nil => intro st acc _; rfl
  | cons p ps ih =>
    intro st acc h
    simp only [pickGuaranteed]
    rw [pickRandomChar_congr h]
    cases hp : pickRandomChar p fuel w₂ st with
    | none => rfl
    | some cst =>
      obtain ⟨c, st'⟩ := cst
      have hle := pickRandomChar_pos_le hp
      exact ih st' (acc ++ [c]) fun k hk => h k (le_trans hle hk)

theorem fillLoop_congr {fuel : Nat} {combined : List Char} {w₁ w₂ : Nat → Nat} :
    ∀ (n : Nat) (st : RState) (acc : List (List Char)),
      (∀ k, st.pos ≤ k → w₁ k = w₂ k) →
      fillLoop fuel w₁ combined n st acc = fillLoop fuel w₂ combined n st acc := by
  intro n
  induction n with
  | zero => intro st acc _; rfl
  | succ n ih =>
    intro st acc h
    simp only [fillLoop]
    rw [pickRandomChar_congr h]
    cases hp : pickRandomChar combined fuel w₂ st with
    | none => rfl
    | some cst =>
      obtain ⟨c, st'⟩ := cst
      have hle := pickRandomChar_pos_le hp
      exact ih st' (acc ++ [c]) fun k hk => h k (le_trans hle hk)

theorem shuffleLoop_congr {fuel : Nat} {w₁ w₂ : Nat → Nat} {α : Type _} :
    ∀ (i : Nat) (arr : List α) (st : RState),
      (∀ k, st.pos ≤ k → w₁ k = w₂ k) →
      shuffleLoop fuel w₁ i arr st = shuffleLoop fuel w₂ i arr st := by
  intro i
  induction i with
  | zero => intro arr st _; rfl
  | succ i ih =>
    intro arr st h
    simp only [shuffleLoop]
    rw [getSecureRandomInt_congr h]
    cases hg : getSecureRandomInt fuel (i + 2) w₂ st with
    | none => rfl
    | some jst =>
      obtain ⟨j, st'⟩ := jst
      have hle := getSecureRandomInt_some_pos_le hg
      exact ih (listSwap arr (i + 1) j) st' fun k hk => h k (le_trans hle hk)

theorem pickGuaranteed_pos_le {fuel : Nat} {words : Nat → Nat} :
    ∀ (ps : List (List Char)) (st : RState) (acc res : List (List Char)) (st' : RState),
      pickGuaranteed fuel words ps st acc = some (res, st') → st.pos ≤ st'.pos := by
  intro ps
  induction ps with
  | nil =>
    intro st acc res st' h
    simp only [pickGuaranteed, Option.some.injEq, Prod.mk.injEq] at h
    rw [← h.2]
  | cons p ps ih =>
    intro st acc res st' h
    simp only [pickGuaranteed] at h
    cases hp : pickRandomChar p fuel words st with
    | none => rw [hp] at h; exact absurd h (by simp)
    | some cst =>
      obtain ⟨c, st1⟩ := cst
      rw [hp] at h
      exact le_trans (pickRandomChar_pos_le hp) (ih st1 (acc ++ [c]) res st' h)

theorem fillLoop_pos_le {fuel : Nat} {words : Nat → Nat} {combined : List Char} :
    ∀ (n : Nat) (st : RState) (acc res : List (List Char)) (st' : RState),
      fillLoop fuel words combined n st acc = some (res, st') → st.pos ≤ st'.pos := by
  intro n
  induction n with
  | zero =>
    intro st acc res st' h
    simp only [fillLoop, Option.some.injEq, Prod.mk.injEq] at h
    rw [← h.2]
  | succ n ih =>
    intro st acc res st' h
    simp only [fillLoop] at h
    cases hp : pickRandomChar combined fuel words st with
    | none => rw [hp] at h; exact absurd h (by simp)
    | some cst =>
      obtain ⟨c, st1⟩ := cst
      rw [hp] at h
      exact le_trans (pickRandomChar_pos_le hp) (ih st1 (acc ++ [c]) res st' h)

/-- C8: `generatePassword` is a deterministic function of its inputs
and the randomness stream: two runs with the same length and selection,
over streams that agree on every word from the current position on
(in particular, replaying the identical sequence of underlying random
words), produce the identical outcome. -/
theorem generatePassword_deterministic_replay (fuel len : Nat) (o : GenOpts)
    (w₁ w₂ : Nat → Nat) (st : RState) (h : ∀ k, st.pos ≤ k → w₁ k = w₂ k) :
    generatePassword fuel len o w₁ st = generatePassword fuel len o w₂ st := by
  unfold generatePassword
  dsimp only []
  by_cases h0 : (pools o).length = 0
  · rw [if_pos h0, if_pos h0]
  · rw [if_neg h0, if_neg h0]
    by_cases h1 : len < (pools o).length
    · rw [if_pos h1, if_pos h1]
    · rw [if_neg h1, if_neg h1]
      rw [pickGuaranteed_congr (pools o) st [] h]
      cases hpg : pickGuaranteed fuel w₂ (pools o) st [] with
      | none => rfl
      | some r1 =>
        obtain ⟨res1, st1⟩ := r1
        dsimp only []
        have hle1 := pickGuaranteed_pos_le (pools o) st [] res1 st1 hpg
        rw [fillLoop_congr (len - res1.length) st1 res1
          fun k hk => h k (le_trans hle1 hk)]
        cases hfl : fillLoop fuel w₂ (pools o).flatten (len - res1.length) st1 res1 with
        | none => rfl
        | some r2 =>
          obtain ⟨res2, st2⟩ := r2
          dsimp only []
          have hle2 := fillLoop_pos_le (len - res1.length) st1 res1 res2 st2 hfl
          unfold shuffleArray
          rw [shuffleLoop_congr (res2.length - 1) res2 st2
            fun k hk => h k (le_trans (le_trans hle1 hle2) hk)]

theorem generatePassword_deterministic_replay_witness :
    generatePassword 2 4 ⟨true, false, false, true⟩
        (fun k => if k < 2 then 99 else 0) ⟨2, 0⟩ =
      generatePassword 2 4 ⟨true, false, false, true⟩ (fun _ => 0) ⟨2, 0⟩ :=
  generatePassword_deterministic_replay 2 4 ⟨true, false, false, true⟩
    (fun k => if k < 2 then 99 else 0) (fun _ => 0) ⟨2, 0⟩
    (fun k hk => by
      show (if k < 2 then 99 else 0) = 0
      rw [if_neg (by simp at hk; omega)])

/-- Swap of the entries at positions `i` and `j`, written from the
specification's words ("swapping positions `i` and `j`"); out-of-range
indices leave the list unchanged. -/
def swapSpec (l : List α) (i j : Nat) : List α :=
  match l[i]?, l[j]? with
  | some a, some b => (l.set j a).set i b
  | _, _ => l

/-- Reference Fisher–Yates shuffle, written from the specification's
words: iterate `i` from the last index down to index `1`, at each step
drawing `j = nextBoundedInt(i + 1)` from the bounded random source
`draw` and swapping positions `i` and `j`. -/
def fisherYatesSpec (draw : Nat → RState → Option (Nat × RState))
    (arr : List α) (st : RState) : Option (List α × RState) :=
  (List.range' 1 (arr.length - 1)).reverse.foldl
    (fun acc i => acc.bind fun as =>
      (draw (i + 1) as.2).map fun js => (swapSpec as.1 i js.1, js.2))
    (some (arr, st))

theorem listSwap_eq_swapSpec (l : List α) (i j : Nat) :
    listSwap l i j = swapSpec l i j := by
  unfold listSwap swapSpec
  cases hi : l[i]? with
  | none => cases l[j]? <;> rfl
  | some a =>
    cases hj : l[j]? with
    | none => rfl
    | some b =>
      show (l.set i b).set j a = (l.set j a).set i b
      by_cases hij : i = j
      · subst hij
        have hab : a = b := by
          rw [hi] at hj
          exact Option.some.inj hj
        subst hab
        rw [List.set_set]
      · exact List.set_comm b a l hij

theorem foldl_bind_none {γ δ : Type _} (G : δ → γ → Option γ) :
    ∀ l : List δ, l.foldl (fun acc idx => acc.bind fun x => G idx x) none = none := by
  intro l
  induction l with
  | nil => rfl
  | cons a l ih => exact ih

theorem shuffleLoop_eq_fold {fuel : Nat} {words : Nat → Nat} {α : Type _} :
    ∀ (i : Nat) (arr : List α) (st : RState),
      shuffleLoop fuel words i arr st =
        (List.range' 1 i).reverse.foldl
          (fun acc idx => acc.bind fun as =>
            (getSecureRandomInt fuel (idx + 1) words as.2).map fun js =>
              (swapSpec as.1 idx js.1, js.2))
          (some (arr, st)) := by
  intro i
  induction i with
  | zero => intro arr st; rfl
  | succ i ih =>
    intro arr st
    have hrange : List.range' 1 (i + 1) = List.range' 1 i ++ [1 + i] := by
      rw [List.range'_concat 1 i]
      norm_num
    rw [shuffleLoop, hrange, List.reverse_append]
    show _ = ([1 + i].reverse ++ (List.range' 1 i).reverse).foldl _ _
    rw [List.foldl_append]
    cases hg : getSecureRandomInt fuel (i + 2) words st with
    | none =>
      have hbase : ([1 + i].reverse).foldl
          (fun acc idx => acc.bind fun as =>
            (getSecureRandomInt fuel (idx + 1) words as.2).map fun js =>
              (swapSpec as.1 idx js.1, js.2))
          (some (arr, st)) = none := by
        show ((some (arr, st)).bind fun as =>
          (getSecureRandomInt fuel (1 + i + 1) words as.2).map fun js =>
            (swapSpec as.1 (1 + i) js.1, js.2)) = none
        rw [Option.some_bind]
        have : 1 + i + 1 = i + 2 := by omega
        rw [this]
        have : (1 : Nat) + i = i + 1 := by omega
        rw [this, hg]
        rfl
      rw [hbase, foldl_bind_none]
    | some js =>
      obtain ⟨j, st'⟩ := js
      have hbase : ([1 + i].reverse).foldl
          (fun acc idx => acc.bind fun as =>
            (getSecureRandomInt fuel (idx + 1) words as.2).map fun js =>
              (swapSpec as.1 idx js.1, js.2))
          (some (arr, st)) = some (swapSpec arr (i + 1) j, st') := by
        show ((some (arr, st)).bind fun as =>
          (getSecureRandomInt fuel (1 + i + 1) words as.2).map fun js =>
            (swapSpec as.1 (1 + i) js.1, js.2)) = _
        rw [Option.some_bind]
        have h2 : 1 + i + 1 = i + 2 := by omega
        rw [h2]
        have h1 : (1 : Nat) + i = i + 1 := by omega
        rw [h1, hg]
        rfl
      rw [hbase]
      dsimp only []
      rw [listSwap_eq_swapSpec]
      exact ih (swapSpec arr (i + 1) j) st'

/-- C9: `shuffleArray` coincides, run for run and over every
randomness stream, with the reference Fisher–Yates procedure of the
specification instantiated with the code's own bounded random source: it
iterates `i` from the last index down to `1`, draws
`j = getSecureRandomInt(i + 1)` at each step, swaps positions `i` and
`j`, and performs no other modification of the buffer. -/
theorem shuffleArray_eq_fisherYatesSpec {α : Type _} (fuel : Nat)
    (words : Nat → Nat) (arr : List α) (st : RState) :
    shuffleArray fuel words arr st =
      fisherYatesSpec (fun m s => getSecureRandomInt fuel m words s) arr st := by
  unfold shuffleArray fisherYatesSpec
  exact shuffleLoop_eq_fold (arr.length - 1) arr st

/-- C10: Whenever `shuffleArray` completes, the returned array is a
permutation of the input array: same length, same multiset of elements —
shuffling never adds, drops, or duplicates an element of the working
buffer. -/
theorem shuffleArray_perm_input {α : Type _} (fuel : Nat) (words : Nat → Nat)
    (arr : List α) (st : RState) (res : List α) (st' : RState)
    (h : shuffleArray fuel words arr st = some (res, st')) :
    res.Perm arr :=
  (shuffleArray_some h).1

theorem shuffleArray_perm_input_witness :
    ([20, 30, 10] : List Nat).Perm [10, 20, 30] :=
  shuffleArray_perm_input 1 (fun _ => 0) [10, 20, 30] ⟨0, 0⟩ [20, 30, 10]
    ⟨2, 2⟩ (by rfl)

theorem rejectionBound_largest_multiple_acceptance_witness :
    0 < 3 ∧
      ((rejectionBound 3 % 3 = 0 ∧ rejectionBound 3 ≤ uint32Max ∧
          ∀ m, m % 3 = 0 → m ≤ uint32Max → m ≤ rejectionBound 3) ∧
        (7 % 2 ^ 32 < rejectionBound 3 ↔
          getSecureRandomInt 1 3 (fun _ => 7) ⟨0, 0⟩ =
            some (7 % 2 ^ 32 % 3, ⟨1, 1⟩))) :=
  ⟨by decide,
    rejectionBound_largest_multiple_acceptance 0 3 0 0 (fun _ => 7) (by decide)⟩
